import Mathlib

/-!
# FolderVault: verification of the crypto core and orchestration

A shallow embedding of the FolderVault sources (Electron main process
`main.js` and the accompanying test harness).  Byte strings are `List Nat`,
file systems are association lists from path strings to byte strings, and
the streaming pipelines are modelled as pure functions over chunk lists.

The external Node `crypto` primitives (scrypt, AES-256-GCM) are not part of
the repository; they are abstracted as a `CryptoPrim` bundle.  AES-GCM is
modelled by its structure: a CTR-style keystream XORed onto the plaintext
(hence ciphertext length = plaintext length) plus a deterministic
authentication tag computed from key, IV and ciphertext.
-/

namespace FolderVault

/-- Source constant `MAGIC = Buffer.from('ELECTRON')` — the fixed 8-byte ASCII tag. -/
def MAGIC : List Nat := [69, 76, 69, 67, 84, 82, 79, 78]

/-- Source constant `SALT_LEN = 16`. -/
def SALT_LEN : Nat := 16

/-- Source constant `IV_LEN = 12`. -/
def IV_LEN : Nat := 12

/-- Source constant `AUTH_TAG_LEN = 16`. -/
def AUTH_TAG_LEN : Nat := 16

/-- CTR-style keystream XOR starting at keystream index `i`:
`aes-256-gcm` encrypts (and decrypts) the byte stream by XORing it with a
keystream that depends only on key and IV. -/
def ctrXor (ks : Nat → Nat) : Nat → List Nat → List Nat
  | _, [] => []
  | i, b :: bs => (b ^^^ ks i) :: ctrXor ks (i + 1) bs

/-- The external Node `crypto` primitives used by the sources, abstracted.
`scrypt pw salt keyLen N r p` is the promisified `crypto.scrypt`;
`ks key iv` is the AES-256 CTR keystream underlying GCM; `tag key iv ct`
is the GCM authentication tag (the sources use no AAD). -/
structure CryptoPrim where
  scrypt : List Nat → List Nat → Nat → Nat → Nat → Nat → List Nat
  scrypt_len : ∀ pw salt kl n r p, (scrypt pw salt kl n r p).length = kl
  ks : List Nat → List Nat → Nat → Nat
  tag : List Nat → List Nat → List Nat → List Nat
  tag_len : ∀ k iv ct, (tag k iv ct).length = 16

/-- A concrete (degenerate) instance of the primitives, used to instantiate
universally quantified theorems on closed inputs. -/
def trivPrim : CryptoPrim where
  scrypt := fun _ _ kl _ _ _ => List.replicate kl 0
  scrypt_len := fun _ _ _ _ _ _ => List.length_replicate _ _
  ks := fun _ _ _ => 0
  tag := fun _ _ _ => List.replicate 16 7
  tag_len := fun _ _ _ => List.length_replicate _ _

/-- A second concrete instance, distinct from `trivPrim`, used to express
that early `decryptFile` failures are independent of the primitives. -/
def trivPrim2 : CryptoPrim where
  scrypt := fun _ _ kl _ _ _ => List.replicate kl 1
  scrypt_len := fun _ _ _ _ _ _ => List.length_replicate _ _
  ks := fun _ _ _ => 255
  tag := fun _ _ _ => List.replicate 16 9
  tag_len := fun _ _ _ => List.length_replicate _ _

/-- Embedding of `encryptFile`, byte level.  The salt and IV are the freshly drawn
`crypto.randomBytes` values, passed here as parameters.  The output bytes
are accumulated exactly in the order the source writes them:
`writeStream.write(MAGIC)`, `write(salt)`, `write(iv)`, then the
`pipeline(read, counter, cipher, write)` appends the ciphertext, and
finally `fs.promises.appendFile(outPath, authTag)` appends the tag. -/
def encryptFileBytes (P : CryptoPrim) (salt iv pw content : List Nat) : List Nat :=
  let key := P.scrypt pw salt 32 16384 8 1
  let ct := ctrXor (P.ks key iv) 0 content
  let afterHeader := (([] ++ MAGIC) ++ salt) ++ iv
  let afterPipeline := afterHeader ++ ct
  afterPipeline ++ P.tag key iv ct

/-- The error taxonomy of `decryptFile`: the two early header checks, the
GCM authentication failure surfaced at the pipeline's final step, and a
catch-all for stream I/O errors. -/
inductive DecErr where
  | truncatedFile
  | invalidMagic
  | authenticationFailed
  | ioError
  deriving DecidableEq, Repr

/-- Embedding of `decryptFile`, byte level.  Mirrors the source's check order:
size check (`fileSize < headerLen + AUTH_TAG_LEN`) first, then the magic
comparison, then scrypt key derivation, then the GCM pipeline whose final
step verifies the authentication tag read from the last 16 bytes.  The
ciphertext span is bytes `[headerLen, fileSize - AUTH_TAG_LEN)`, matching
`createReadStream(encPath, {start, end})` with inclusive `end`. -/
def decryptFileBytes (P : CryptoPrim) (pw input : List Nat) : Except DecErr (List Nat) :=
  let fileSize := input.length
  let headerLen := MAGIC.length + SALT_LEN + IV_LEN
  if fileSize < headerLen + AUTH_TAG_LEN then .error .truncatedFile
  else
    let magic := input.take MAGIC.length
    if magic ≠ MAGIC then .error .invalidMagic
    else
      let salt := (input.drop MAGIC.length).take SALT_LEN
      let iv := (input.drop (MAGIC.length + SALT_LEN)).take IV_LEN
      let authTag := input.drop (fileSize - AUTH_TAG_LEN)
      let key := P.scrypt pw salt 32 16384 8 1
      let ct := (input.drop headerLen).take (fileSize - AUTH_TAG_LEN - headerLen)
      if P.tag key iv ct ≠ authTag then .error .authenticationFailed
      else .ok (ctrXor (P.ks key iv) 0 ct)

theorem ctrXor_length (ks : Nat → Nat) : ∀ (i : Nat) (l : List Nat),
    (ctrXor ks i l).length = l.length := by
  intro i l
  induction l generalizing i with
  | nil => rfl
  | cons b bs ih => simp [ctrXor, ih]

theorem ctrXor_involutive (ks : Nat → Nat) : ∀ (i : Nat) (l : List Nat),
    ctrXor ks i (ctrXor ks i l) = l := by
  intro i l
  induction l generalizing i with
  | nil => rfl
  | cons b bs ih => simp [ctrXor, ih, Nat.xor_cancel_right]

theorem MAGIC_length : MAGIC.length = 8 := rfl

/-- The container laid out as plain appends. -/
theorem encryptFileBytes_eq (P : CryptoPrim) (salt iv pw content : List Nat) :
    encryptFileBytes P salt iv pw content =
      MAGIC ++ salt ++ iv ++
        ctrXor (P.ks (P.scrypt pw salt 32 16384 8 1) iv) 0 content ++
        P.tag (P.scrypt pw salt 32 16384 8 1) iv
          (ctrXor (P.ks (P.scrypt pw salt 32 16384 8 1) iv) 0 content) := by
  simp [encryptFileBytes]

theorem encryptFileBytes_length (P : CryptoPrim) (salt iv pw content : List Nat)
    (hs : salt.length = 16) (hi : iv.length = 12) :
    (encryptFileBytes P salt iv pw content).length = content.length + 52 := by
  simp [encryptFileBytes, hs, hi, ctrXor_length, P.tag_len, MAGIC]
  omega

/-- Decrypting a well-formed container whose tag matches recovers the
CTR-decrypted ciphertext.  This is the parsing half of the round trip. -/
theorem decryptFileBytes_append (P : CryptoPrim) (pw salt iv ct tg : List Nat)
    (hs : salt.length = 16) (hi : iv.length = 12) (ht : tg.length = 16)
    (htag : P.tag (P.scrypt pw salt 32 16384 8 1) iv ct = tg) :
    decryptFileBytes P pw (MAGIC ++ (salt ++ (iv ++ (ct ++ tg)))) =
      .ok (ctrXor (P.ks (P.scrypt pw salt 32 16384 8 1) iv) 0 ct) := by
  have hmag : (MAGIC : List Nat).length = 8 := rfl
  set input := MAGIC ++ (salt ++ (iv ++ (ct ++ tg))) with hinput
  have hlen : input.length = ct.length + 52 := by
    simp [hinput, hs, hi, ht, MAGIC]; omega
  have hdrop8 : input.drop 8 = salt ++ (iv ++ (ct ++ tg)) := List.drop_left' hmag
  have htake8 : input.take 8 = MAGIC := List.take_left' hmag
  have hsalt : (input.drop 8).take 16 = salt := by
    rw [hdrop8]; exact List.take_left' hs
  have hdrop24 : input.drop 24 = iv ++ (ct ++ tg) := by
    rw [show (24 : Nat) = 8 + 16 from rfl, ← List.drop_drop, hdrop8]
    exact List.drop_left' hs
  have hiv2 : (input.drop 24).take 12 = iv := by
    rw [hdrop24]; exact List.take_left' hi
  have hdrop36 : input.drop 36 = ct ++ tg := by
    rw [show (36 : Nat) = 24 + 12 from rfl, ← List.drop_drop, hdrop24]
    exact List.drop_left' hi
  have hct2 : (input.drop 36).take ct.length = ct := by
    rw [hdrop36]; exact List.take_left' rfl
  have htg2 : input.drop (input.length - 16) = tg := by
    rw [hlen, show ct.length + 52 - 16 = 36 + ct.length from by omega,
      ← List.drop_drop, hdrop36]
    exact List.drop_left' rfl
  have harith : input.length - 16 - 36 = ct.length := by omega
  simp only [decryptFileBytes, SALT_LEN, IV_LEN, AUTH_TAG_LEN, MAGIC_length]
  split
  · next h => exfalso; omega
  · split
    · next h => exact absurd htake8 h
    · split
      · next h =>
        exfalso
        norm_num at h
        rw [hsalt, hiv2, harith, hct2, htg2, htag] at h
        exact h rfl
      · norm_num
        rw [hsalt, hiv2, harith, hct2]

/-- C1 helper: full round trip at the byte level. -/
theorem decrypt_encrypt_bytes (P : CryptoPrim) (salt iv pw content : List Nat)
    (hs : salt.length = 16) (hi : iv.length = 12) :
    decryptFileBytes P pw (encryptFileBytes P salt iv pw content) = .ok content := by
  rw [encryptFileBytes_eq]
  simp only [List.append_assoc]
  rw [decryptFileBytes_append P pw salt iv _ _ hs hi (P.tag_len _ _ _) rfl,
    ctrXor_involutive]

/-- Truncation check fires first: any input shorter than 52 bytes is
rejected before the magic comparison, the scrypt call and the cipher. -/
theorem decryptFileBytes_truncated (P : CryptoPrim) (pw input : List Nat)
    (h : input.length < 52) :
    decryptFileBytes P pw input = .error .truncatedFile := by
  have h52 : input.length < MAGIC.length + SALT_LEN + IV_LEN + AUTH_TAG_LEN := by
    simpa [MAGIC, SALT_LEN, IV_LEN, AUTH_TAG_LEN] using h
  simp only [decryptFileBytes]
  rw [if_pos h52]

/-- Magic check fires second: a large-enough input whose first 8 bytes are
not `ELECTRON` is rejected with the invalid-magic error. -/
theorem decryptFileBytes_invalidMagic (P : CryptoPrim) (pw input : List Nat)
    (h1 : 52 ≤ input.length) (h2 : input.take 8 ≠ MAGIC) :
    decryptFileBytes P pw input = .error .invalidMagic := by
  have h52 : ¬ (input.length < MAGIC.length + SALT_LEN + IV_LEN + AUTH_TAG_LEN) := by
    simp [MAGIC, SALT_LEN, IV_LEN, AUTH_TAG_LEN]; omega
  have h2' : input.take MAGIC.length ≠ MAGIC := by rw [MAGIC_length]; exact h2
  simp only [decryptFileBytes]
  rw [if_neg h52, if_pos h2']

/-- The trailing 16 bytes of a well-formed container are the tag. -/
theorem container_drop_tag (salt iv ct tg : List Nat)
    (hs : salt.length = 16) (hi : iv.length = 12) (ht : tg.length = 16) :
    (MAGIC ++ (salt ++ (iv ++ (ct ++ tg)))).drop
        ((MAGIC ++ (salt ++ (iv ++ (ct ++ tg)))).length - 16) = tg := by
  have hlen : (MAGIC ++ (salt ++ (iv ++ (ct ++ tg)))).length = ct.length + 52 := by
    simp [hs, hi, ht, MAGIC]; omega
  have hdrop8 : (MAGIC ++ (salt ++ (iv ++ (ct ++ tg)))).drop 8 = salt ++ (iv ++ (ct ++ tg)) :=
    List.drop_left' rfl
  have hdrop24 : (MAGIC ++ (salt ++ (iv ++ (ct ++ tg)))).drop 24 = iv ++ (ct ++ tg) := by
    rw [show (24 : Nat) = 8 + 16 from rfl, ← List.drop_drop, hdrop8]
    exact List.drop_left' hs
  have hdrop36 : (MAGIC ++ (salt ++ (iv ++ (ct ++ tg)))).drop 36 = ct ++ tg := by
    rw [show (36 : Nat) = 24 + 12 from rfl, ← List.drop_drop, hdrop24]
    exact List.drop_left' hi
  rw [hlen, show ct.length + 52 - 16 = 36 + ct.length from by omega,
    ← List.drop_drop, hdrop36]
  exact List.drop_left' rfl

/-- The bytes between the 36-byte header and the trailing tag are the
ciphertext. -/
theorem container_drop_ct (salt iv ct tg : List Nat)
    (hs : salt.length = 16) (hi : iv.length = 12) (ht : tg.length = 16) :
    ((MAGIC ++ (salt ++ (iv ++ (ct ++ tg)))).drop 36).take
        ((MAGIC ++ (salt ++ (iv ++ (ct ++ tg)))).length - 52) = ct := by
  have hlen : (MAGIC ++ (salt ++ (iv ++ (ct ++ tg)))).length = ct.length + 52 := by
    simp [hs, hi, ht, MAGIC]; omega
  have hdrop8 : (MAGIC ++ (salt ++ (iv ++ (ct ++ tg)))).drop 8 = salt ++ (iv ++ (ct ++ tg)) :=
    List.drop_left' rfl
  have hdrop24 : (MAGIC ++ (salt ++ (iv ++ (ct ++ tg)))).drop 24 = iv ++ (ct ++ tg) := by
    rw [show (24 : Nat) = 8 + 16 from rfl, ← List.drop_drop, hdrop8]
    exact List.drop_left' hs
  have hdrop36 : (MAGIC ++ (salt ++ (iv ++ (ct ++ tg)))).drop 36 = ct ++ tg := by
    rw [show (36 : Nat) = 24 + 12 from rfl, ← List.drop_drop, hdrop24]
    exact List.drop_left' hi
  rw [hlen, show ct.length + 52 - 52 = ct.length from by omega, hdrop36]
  exact List.take_left' rfl

/-- C1: for every file content and every password, encrypting with
`encryptFile` and decrypting the resulting container with `decryptFile`
under the same password yields output byte-equal to the original content,
including the empty-content case.  `salt` and `iv` are the fresh
`crypto.randomBytes` draws of the encryption call (any values of the
correct lengths). -/
theorem C1_encrypt_decrypt_roundtrip (P : CryptoPrim) (salt iv pw content : List Nat)
    (hs : salt.length = 16) (hi : iv.length = 12) :
    decryptFileBytes P pw (encryptFileBytes P salt iv pw content) = .ok content :=
  decrypt_encrypt_bytes P salt iv pw content hs hi

theorem C1_encrypt_decrypt_roundtrip_witness :
    (List.replicate 16 2).length = 16 ∧ (List.replicate 12 3).length = 12 ∧
      decryptFileBytes trivPrim [9]
        (encryptFileBytes trivPrim (List.replicate 16 2) (List.replicate 12 3) [9]
          [72, 105, 0]) = .ok [72, 105, 0] ∧
      decryptFileBytes trivPrim [9]
        (encryptFileBytes trivPrim (List.replicate 16 2) (List.replicate 12 3) [9] []) =
        .ok [] :=
  ⟨by decide, by decide,
    C1_encrypt_decrypt_roundtrip trivPrim _ _ _ _ (by decide) (by decide),
    C1_encrypt_decrypt_roundtrip trivPrim _ _ _ _ (by decide) (by decide)⟩

/-- C4: any input shorter than header (36) + tag (16) = 52 bytes fails with
the truncated-file error before any cryptographic work — formalised both by
the check order in `decryptFileBytes` and by the result being independent
of the password and of every cryptographic primitive; and any input of
sufficient size whose leading 8 bytes differ from `MAGIC` fails with the
invalid-magic error. -/
theorem C4_truncation_and_magic (P P' : CryptoPrim) (pw pw' input : List Nat) :
    (input.length < 52 →
      decryptFileBytes P pw input = .error .truncatedFile ∧
        decryptFileBytes P pw input = decryptFileBytes P' pw' input) ∧
    (52 ≤ input.length → input.take 8 ≠ MAGIC →
      decryptFileBytes P pw input = .error .invalidMagic) := by
  refine ⟨fun h => ⟨decryptFileBytes_truncated P pw input h, ?_⟩,
    fun h1 h2 => decryptFileBytes_invalidMagic P pw input h1 h2⟩
  rw [decryptFileBytes_truncated P pw input h, decryptFileBytes_truncated P' pw' input h]

theorem C4_truncation_and_magic_witness :
    ([3, 3, 3] : List Nat).length < 52 ∧
      decryptFileBytes trivPrim [1] [3, 3, 3] = .error .truncatedFile ∧
      decryptFileBytes trivPrim [1] [3, 3, 3] = decryptFileBytes trivPrim2 [2] [3, 3, 3] ∧
      52 ≤ (List.replicate 52 0 : List Nat).length ∧
      (List.replicate 52 0 : List Nat).take 8 ≠ MAGIC ∧
      decryptFileBytes trivPrim [1] (List.replicate 52 0) = .error .invalidMagic :=
  ⟨by decide,
    ((C4_truncation_and_magic trivPrim trivPrim2 [1] [2] [3, 3, 3]).1 (by decide)).1,
    ((C4_truncation_and_magic trivPrim trivPrim2 [1] [2] [3, 3, 3]).1 (by decide)).2,
    by decide, by decide,
    (C4_truncation_and_magic trivPrim trivPrim2 [1] [2] (List.replicate 52 0)).2
      (by decide) (by decide)⟩

/-- C7: every container built by `encryptFile` (which writes `MAGIC`, then
the salt, then the IV, then streams the ciphertext, then appends the tag)
has the exact byte layout `MAGIC ‖ SALT(16) ‖ IV(12) ‖ CIPHERTEXT ‖
AUTH_TAG(16)`, the tag being the final 16 bytes, with the cipher keyed by
the 32-byte scrypt-derived key at parameters `N=16384, r=8, p=1`. -/
theorem C7_container_layout (P : CryptoPrim) (salt iv pw content : List Nat)
    (hs : salt.length = 16) (hi : iv.length = 12) :
    encryptFileBytes P salt iv pw content =
      MAGIC ++ salt ++ iv ++
        ctrXor (P.ks (P.scrypt pw salt 32 16384 8 1) iv) 0 content ++
        P.tag (P.scrypt pw salt 32 16384 8 1) iv
          (ctrXor (P.ks (P.scrypt pw salt 32 16384 8 1) iv) 0 content) ∧
    MAGIC.length = 8 ∧
    (P.tag (P.scrypt pw salt 32 16384 8 1) iv
      (ctrXor (P.ks (P.scrypt pw salt 32 16384 8 1) iv) 0 content)).length = 16 ∧
    (P.scrypt pw salt 32 16384 8 1).length = 32 ∧
    (encryptFileBytes P salt iv pw content).drop
        ((encryptFileBytes P salt iv pw content).length - 16) =
      P.tag (P.scrypt pw salt 32 16384 8 1) iv
        (ctrXor (P.ks (P.scrypt pw salt 32 16384 8 1) iv) 0 content) ∧
    ((encryptFileBytes P salt iv pw content).drop 36).take
        ((encryptFileBytes P salt iv pw content).length - 52) =
      ctrXor (P.ks (P.scrypt pw salt 32 16384 8 1) iv) 0 content := by
  refine ⟨encryptFileBytes_eq P salt iv pw content, rfl, P.tag_len _ _ _,
    P.scrypt_len _ _ _ _ _ _, ?_, ?_⟩
  · rw [encryptFileBytes_eq]
    simp only [List.append_assoc]
    exact container_drop_tag _ _ _ _ hs hi (P.tag_len _ _ _)
  · rw [encryptFileBytes_eq]
    simp only [List.append_assoc]
    exact container_drop_ct _ _ _ _ hs hi (P.tag_len _ _ _)

theorem C7_container_layout_witness :
    (List.replicate 16 1).length = 16 ∧ (List.replicate 12 4).length = 12 ∧
      encryptFileBytes trivPrim (List.replicate 16 1) (List.replicate 12 4) [8] [5, 6] =
        MAGIC ++ List.replicate 16 1 ++ List.replicate 12 4 ++
          ctrXor (trivPrim.ks (trivPrim.scrypt [8] (List.replicate 16 1) 32 16384 8 1)
            (List.replicate 12 4)) 0 [5, 6] ++
          trivPrim.tag (trivPrim.scrypt [8] (List.replicate 16 1) 32 16384 8 1)
            (List.replicate 12 4)
            (ctrXor (trivPrim.ks (trivPrim.scrypt [8] (List.replicate 16 1) 32 16384 8 1)
              (List.replicate 12 4)) 0 [5, 6]) :=
  ⟨by decide, by decide,
    (C7_container_layout trivPrim (List.replicate 16 1) (List.replicate 12 4) [8] [5, 6]
      (by decide) (by decide)).1⟩

/-- C9: the container for an `n`-byte plaintext is exactly `n + 52` bytes
(8 magic + 16 salt + 12 IV + `n` ciphertext + 16 tag) because the GCM/CTR
ciphertext has the plaintext's length; the empty file yields a 52-byte
container, which is the minimum size `decryptFile` accepts (every shorter
input is rejected as truncated, and the 52-byte empty-content container
decrypts successfully). -/
theorem C9_container_length (P : CryptoPrim) (salt iv pw content : List Nat)
    (hs : salt.length = 16) (hi : iv.length = 12) :
    (encryptFileBytes P salt iv pw content).length = content.length + 52 ∧
    (encryptFileBytes P salt iv pw []).length = 52 ∧
    (∀ input : List Nat, input.length < 52 →
      decryptFileBytes P pw input = .error .truncatedFile) ∧
    decryptFileBytes P pw (encryptFileBytes P salt iv pw []) = .ok [] := by
  refine ⟨encryptFileBytes_length P salt iv pw content hs hi, ?_,
    fun input h => decryptFileBytes_truncated P pw input h,
    decrypt_encrypt_bytes P salt iv pw [] hs hi⟩
  simpa using encryptFileBytes_length P salt iv pw [] hs hi

theorem C9_container_length_witness :
    (List.replicate 16 6).length = 16 ∧ (List.replicate 12 6).length = 12 ∧
      (encryptFileBytes trivPrim (List.replicate 16 6) (List.replicate 12 6) [4]
        [1, 2, 3]).length = 3 + 52 ∧
      (encryptFileBytes trivPrim (List.replicate 16 6) (List.replicate 12 6) [4] []).length
        = 52 ∧
      decryptFileBytes trivPrim [4]
        (encryptFileBytes trivPrim (List.replicate 16 6) (List.replicate 12 6) [4] []) =
        .ok [] :=
  ⟨by decide, by decide,
    (C9_container_length trivPrim (List.replicate 16 6) (List.replicate 12 6) [4] [1, 2, 3]
      (by decide) (by decide)).1,
    (C9_container_length trivPrim (List.replicate 16 6) (List.replicate 12 6) [4] [1, 2, 3]
      (by decide) (by decide)).2.1,
    (C9_container_length trivPrim (List.replicate 16 6) (List.replicate 12 6) [4] [1, 2, 3]
      (by decide) (by decide)).2.2.2⟩

/-! ## CountingTransform -/

/-- Concatenation of the chunk stream flowing through a pipeline. -/
def joinChunks : List (List Nat) → List Nat
  | [] => []
  | c :: cs => c ++ joinChunks cs

/-- Embedding of `CountingTransform`: for each incoming chunk the stream adds
`chunk.length` to `seen`, reports `seen` via `onProgress`, and pushes the
chunk unchanged.  The model returns the pushed chunks and the list of
reported `seen` values, in order. -/
def countingTransform (seen : Nat) : List (List Nat) → List (List Nat) × List Nat
  | [] => ([], [])
  | c :: cs =>
    let seen' := seen + c.length
    let r := countingTransform seen' cs
    (c :: r.1, seen' :: r.2)

theorem countingTransform_fst (seen : Nat) (cs : List (List Nat)) :
    (countingTransform seen cs).1 = cs := by
  induction cs generalizing seen with
  | nil => rfl
  | cons c cs ih => simp [countingTransform, ih]

theorem countingTransform_snd_length (seen : Nat) (cs : List (List Nat)) :
    (countingTransform seen cs).2.length = cs.length := by
  induction cs generalizing seen with
  | nil => rfl
  | cons c cs ih => simp [countingTransform, ih]

theorem countingTransform_report (cs : List (List Nat)) (seen k : Nat)
    (h : k < (countingTransform seen cs).2.length) :
    (countingTransform seen cs).2.get ⟨k, h⟩ =
      seen + (joinChunks (cs.take (k + 1))).length := by
  induction cs generalizing seen k with
  | nil => simp [countingTransform] at h
  | cons c cs ih =>
    cases k with
    | zero => simp [countingTransform, joinChunks]
    | succ k =>
      have h' : k < (countingTransform (seen + c.length) cs).2.length := by
        simpa [countingTransform] using h
      have := ih (seen + c.length) k h'
      simp only [countingTransform, List.take, joinChunks]
      simpa [Nat.add_assoc, Nat.add_comm, Nat.add_left_comm] using this

/-- C10: the `CountingTransform` stage inserted into the encrypt and
decrypt pipelines is an identity on the byte stream — it forwards exactly
the chunks it receives, in order, so any downstream consumer (in
particular the cipher, hence the whole `encryptFile` container) sees the
same bytes with or without the counter — and after the `k`-th chunk the
reported `seen` value equals the cumulative byte count forwarded so far. -/
theorem C10_counting_transform_identity (P : CryptoPrim)
    (salt iv pw : List Nat) (chunks : List (List Nat)) :
    (countingTransform 0 chunks).1 = chunks ∧
    (∀ f : List Nat → List Nat,
      f (joinChunks (countingTransform 0 chunks).1) = f (joinChunks chunks)) ∧
    encryptFileBytes P salt iv pw (joinChunks (countingTransform 0 chunks).1) =
      encryptFileBytes P salt iv pw (joinChunks chunks) ∧
    (∀ k (h : k < (countingTransform 0 chunks).2.length),
      (countingTransform 0 chunks).2.get ⟨k, h⟩ =
        (joinChunks (chunks.take (k + 1))).length) := by
  refine ⟨countingTransform_fst 0 chunks,
    fun f => by rw [countingTransform_fst],
    by rw [countingTransform_fst],
    fun k h => by simpa using countingTransform_report chunks 0 k h⟩

theorem C10_counting_transform_identity_witness :
    (countingTransform 0 [[1, 2], [3], [4, 5, 6]]).1 = [[1, 2], [3], [4, 5, 6]] ∧
      (0 : Nat) < (countingTransform 0 [[1, 2], [3], [4, 5, 6]]).2.length ∧
      (2 : Nat) < (countingTransform 0 [[1, 2], [3], [4, 5, 6]]).2.length ∧
      (countingTransform 0 [[1, 2], [3], [4, 5, 6]]).2.get ⟨0, by decide⟩ = 2 ∧
      (countingTransform 0 [[1, 2], [3], [4, 5, 6]]).2.get ⟨2, by decide⟩ = 6 := by
  refine ⟨(C10_counting_transform_identity trivPrim [] [] [] [[1, 2], [3], [4, 5, 6]]).1,
    by decide, by decide, ?_, ?_⟩
  · have := (C10_counting_transform_identity trivPrim [] [] []
      [[1, 2], [3], [4, 5, 6]]).2.2.2 0 (by decide)
    simpa [joinChunks] using this
  · have := (C10_counting_transform_identity trivPrim [] [] []
      [[1, 2], [3], [4, 5, 6]]).2.2.2 2 (by decide)
    simpa [joinChunks] using this

/-! ## A small file-system model -/

/-- A file system: an association list from paths to byte contents. -/
abbrev FSMap := List (String × List Nat)

def fsLookup (fs : FSMap) (p : String) : Option (List Nat) :=
  match fs with
  | [] => none
  | (q, v) :: rest => if q = p then some v else fsLookup rest p

def fsErase (fs : FSMap) (p : String) : FSMap :=
  match fs with
  | [] => []
  | (q, v) :: rest => if q = p then fsErase rest p else (q, v) :: fsErase rest p

def fsInsert (fs : FSMap) (p : String) (v : List Nat) : FSMap :=
  (p, v) :: fsErase fs p

theorem fsLookup_erase_self (fs : FSMap) (p : String) :
    fsLookup (fsErase fs p) p = none := by
  induction fs with
  | nil => rfl
  | cons e rest ih =>
    by_cases h : e.1 = p <;> simp [fsErase, fsLookup, h, ih]

theorem fsLookup_erase_ne (fs : FSMap) (p q : String) (h : q ≠ p) :
    fsLookup (fsErase fs p) q = fsLookup fs q := by
  have h' : ¬ p = q := fun hpq => h hpq.symm
  induction fs with
  | nil => rfl
  | cons e rest ih =>
    by_cases he : e.1 = p
    · simp [fsErase, fsLookup, he, h', ih]
    · by_cases hq : e.1 = q <;> simp [fsErase, fsLookup, he, hq, ih, h', h]

theorem fsLookup_insert_self (fs : FSMap) (p : String) (v : List Nat) :
    fsLookup (fsInsert fs p v) p = some v := by
  simp [fsInsert, fsLookup]

theorem fsLookup_insert_ne (fs : FSMap) (p q : String) (v : List Nat) (h : q ≠ p) :
    fsLookup (fsInsert fs p v) q = fsLookup fs q := by
  have : ¬ p = q := fun hq => h hq.symm
  simp [fsInsert, fsLookup, this, fsLookup_erase_ne fs p q h]

theorem fsErase_insert (fs : FSMap) (p : String) (v : List Nat) :
    fsErase (fsInsert fs p v) p = fsErase fs p := by
  induction fs with
  | nil => simp [fsInsert, fsErase]
  | cons e rest ih =>
    by_cases h : e.1 = p <;> simp_all [fsInsert, fsErase, h]

/-! ## decryptFile at the file-system level -/

/-- Fault injection for one `decryptFile` call: `pipe` makes the streaming
pipeline fail mid-file (covering read I/O errors and an abort signal),
`cutLen` is how much plaintext reached the temp file before that fault,
`ren` makes the final rename fail, and `sync` makes the best-effort fsync
fail (which the code logs and ignores). -/
structure DecFaults where
  pipe : Bool
  cutLen : Nat
  ren : Bool
  sync : Bool

/-- Model of the JS `file.endsWith('.enc')` test, at the character level
(so that it evaluates on concrete paths). -/
def hasEncSuffix (s : String) : Bool := decide (List.IsSuffix (".enc".data) s.data)

/-- Model of the JS `encPath.slice(0, -n)`: drop the last `n` characters. -/
def strDropRight (s : String) (n : Nat) : String := ⟨s.data.take (s.data.length - n)⟩

/-- Source expression `outPath = encPath.endsWith('.enc') ? encPath.slice(0, -4) : encPath + '.dec'`. -/
def outPathOf (encPath : String) : String :=
  if hasEncSuffix encPath then strDropRight encPath 4
  else encPath ++ ".dec"

/-- Source expression `tmpPath = outPath + '.tmp-' + crypto.randomBytes(6).toString('hex')`;
`hex` stands for the random hex draw. -/
def tmpPathOf (encPath : String) (hex : String) : String :=
  outPathOf encPath ++ ".tmp-" ++ hex

theorem tmpPathOf_ne_outPathOf (encPath hex : String) :
    tmpPathOf encPath hex ≠ outPathOf encPath := by
  intro h
  have hl := congrArg String.length h
  rw [tmpPathOf] at hl
  rw [String.length_append, String.length_append] at hl
  have h5 : String.length ".tmp-" = 5 := rfl
  omega

/-- Embedding of `decryptFile`, file-system level.  Mirrors the source: open and stat the
container, size then magic checks (before any write), derive the key, then
stream the ciphertext span through the decipher into `tmpPath`; on pipeline
failure or GCM tag rejection the temp file is unlinked and the error
rethrown; on success the temp file is fsynced (best-effort) and renamed
onto `outPath`. -/
def decryptFileFS (P : CryptoPrim) (fl : DecFaults) (hex : String) (pw : List Nat)
    (fs : FSMap) (encPath : String) : FSMap × Except DecErr String :=
  match fsLookup fs encPath with
  | none => (fs, .error .ioError)
  | some input =>
    if input.length < MAGIC.length + SALT_LEN + IV_LEN + AUTH_TAG_LEN then
      (fs, .error .truncatedFile)
    else if input.take MAGIC.length ≠ MAGIC then
      (fs, .error .invalidMagic)
    else
      let salt := (input.drop MAGIC.length).take SALT_LEN
      let iv := (input.drop (MAGIC.length + SALT_LEN)).take IV_LEN
      let authTag := input.drop (input.length - AUTH_TAG_LEN)
      let key := P.scrypt pw salt 32 16384 8 1
      let ct := (input.drop (MAGIC.length + SALT_LEN + IV_LEN)).take
        (input.length - AUTH_TAG_LEN - (MAGIC.length + SALT_LEN + IV_LEN))
      let plain := ctrXor (P.ks key iv) 0 ct
      let outPath := outPathOf encPath
      let tmpPath := tmpPathOf encPath hex
      if fl.pipe then
        (fsErase (fsInsert fs tmpPath (plain.take fl.cutLen)) tmpPath, .error .ioError)
      else if P.tag key iv ct ≠ authTag then
        (fsErase (fsInsert fs tmpPath plain) tmpPath, .error .authenticationFailed)
      else if fl.ren then
        (fsErase (fsInsert fs tmpPath plain) tmpPath, .error .ioError)
      else
        (fsInsert (fsErase (fsInsert fs tmpPath plain) tmpPath) outPath plain,
          .ok outPath)

/-- Every `decryptFileFS` call either fails before writing anything, fails
after writing the temp file and cleans it up, or succeeds and commits via
rename. -/
theorem decryptFileFS_shape (P : CryptoPrim) (fl : DecFaults) (hex : String)
    (pw : List Nat) (fs : FSMap) (encPath : String) :
    (∃ e, decryptFileFS P fl hex pw fs encPath = (fs, .error e)) ∨
    (∃ e v, decryptFileFS P fl hex pw fs encPath =
      (fsErase (fsInsert fs (tmpPathOf encPath hex) v) (tmpPathOf encPath hex),
        .error e)) ∨
    (∃ v, decryptFileFS P fl hex pw fs encPath =
      (fsInsert (fsErase (fsInsert fs (tmpPathOf encPath hex) v) (tmpPathOf encPath hex))
        (outPathOf encPath) v, .ok (outPathOf encPath))) := by
  cases hin : fsLookup fs encPath with
  | none =>
    simp only [decryptFileFS, hin]
    exact Or.inl ⟨_, rfl⟩
  | some input =>
    simp only [decryptFileFS, hin]
    split
    · exact Or.inl ⟨_, rfl⟩
    · split
      · exact Or.inl ⟨_, rfl⟩
      · split
        · exact Or.inr (Or.inl ⟨_, _, rfl⟩)
        · split
          · exact Or.inr (Or.inl ⟨_, _, rfl⟩)
          · split
            · exact Or.inr (Or.inl ⟨_, _, rfl⟩)
            · exact Or.inr (Or.inr ⟨_, rfl⟩)

/-- C5: whenever a `decryptFile` call fails — wrong password or tampered
data (GCM tag rejection), a pipeline I/O error or abort, or a rename
failure — the final output path is exactly as it was before the call (the
call never creates a file there) and the temporary file is gone (either it
was cleaned up, or the failure happened before anything was written, in
which case the file system is untouched); output appears at the final path
only on full success, via the temp-then-rename commit, which also leaves
no temp file behind. -/
theorem C5_decrypt_failure_leaves_no_output (P : CryptoPrim) (fl : DecFaults)
    (hex : String) (pw : List Nat) (fs : FSMap) (encPath : String) :
    (∀ e, (decryptFileFS P fl hex pw fs encPath).2 = .error e →
      fsLookup (decryptFileFS P fl hex pw fs encPath).1 (outPathOf encPath) =
        fsLookup fs (outPathOf encPath) ∧
      (fsLookup (decryptFileFS P fl hex pw fs encPath).1 (tmpPathOf encPath hex) = none ∨
        (decryptFileFS P fl hex pw fs encPath).1 = fs)) ∧
    (∀ o, (decryptFileFS P fl hex pw fs encPath).2 = .ok o →
      o = outPathOf encPath ∧
      fsLookup (decryptFileFS P fl hex pw fs encPath).1 (tmpPathOf encPath hex) = none ∧
      ∃ v, fsLookup (decryptFileFS P fl hex pw fs encPath).1 (outPathOf encPath) = some v) := by
  have hne := tmpPathOf_ne_outPathOf encPath hex
  have hne' : outPathOf encPath ≠ tmpPathOf encPath hex := fun h => hne h.symm
  rcases decryptFileFS_shape P fl hex pw fs encPath with ⟨e, hsh⟩ | ⟨e, v, hsh⟩ | ⟨v, hsh⟩
  · rw [hsh]
    generalize tmpPathOf encPath hex = tmp at hne hne' ⊢
    generalize outPathOf encPath = op at hne hne' ⊢
    exact ⟨fun _ _ => ⟨rfl, Or.inr rfl⟩, fun o ho => by simp at ho⟩
  · rw [hsh]
    generalize tmpPathOf encPath hex = tmp at hne hne' ⊢
    generalize outPathOf encPath = op at hne hne' ⊢
    refine ⟨fun _ _ => ⟨?_, Or.inl (fsLookup_erase_self _ _)⟩, fun o ho => by simp at ho⟩
    rw [fsLookup_erase_ne _ _ _ hne', fsLookup_insert_ne _ _ _ _ hne']
  · rw [hsh]
    generalize tmpPathOf encPath hex = tmp at hne hne' ⊢
    generalize outPathOf encPath = op at hne hne' ⊢
    refine ⟨fun e he => by simp at he, fun o ho => ⟨by simpa using ho.symm, ?_, ?_⟩⟩
    · rw [fsLookup_insert_ne _ _ _ _ hne, fsErase_insert, fsLookup_erase_self]
    · exact ⟨_, fsLookup_insert_self _ _ _⟩

/-! ## secureDelete -/

/-- Source constant `const chunk = 64 * 1024` — the reusable overwrite buffer size. -/
def chunkSize : Nat := 64 * 1024

/-- Observable file-system events of the secure-delete routine: a write of
`len` random bytes at offset `off`, an `fd.sync()` flush, and the final
unlink. -/
inductive FsEv where
  | wrote (p : String) (off len : Nat)
  | synced (p : String)
  | unlinked (p : String)
  deriving DecidableEq, Repr

/-- Fault injection for one secure-delete call: the first `fd.write`, the
first `fd.sync`, or the final `unlink` throws. -/
structure EraseFaults where
  failWrite : Bool
  failSync : Bool
  failUnlink : Bool

/-- Embedding of `fd.write(buf, 0, toWrite, written)`: splice `bytes` into `content` at
offset `off`. -/
def writeAt (content : List Nat) (off : Nat) (bytes : List Nat) : List Nat :=
  content.take off ++ bytes ++ content.drop (off + bytes.length)

/-- One overwrite pass: `while (written < size)` write
`min(chunk, size - written)` fresh random bytes at offset `written`.
`rnd k` is the byte stream of the `k`-th `crypto.randomFillSync` call; the
loop advances by at least one byte per iteration, so `fuel = size`
iterations always complete the pass.  Returns the new content, the write
events, and the next `randomFillSync` call counter. -/
def passLoop (rnd : Nat → Nat → Nat) (p : String) (size : Nat) :
    Nat → Nat → Nat → List Nat → List Nat × List FsEv × Nat
  | 0, k, _, content => (content, [], k)
  | fuel + 1, k, written, content =>
    if written < size then
      let toWrite := min chunkSize (size - written)
      let bytes := (List.range toWrite).map (rnd k)
      let r := passLoop rnd p size fuel (k + 1) (written + toWrite)
        (writeAt content written bytes)
      (r.1, .wrote p written toWrite :: r.2.1, r.2.2)
    else (content, [], k)

/-- Embedding of `for (let pass = 0; pass < passes; pass++) \x7b <passLoop>; await fd.sync() \x7d`. -/
def erasePasses (rnd : Nat → Nat → Nat) (p : String) (size : Nat) :
    Nat → Nat → List Nat → List Nat × List FsEv × Nat
  | 0, k, content => (content, [], k)
  | r + 1, k, content =>
    let w := passLoop rnd p size size k 0 content
    let rest := erasePasses rnd p size r w.2.2 w.1
    (rest.1, w.2.1 ++ .synced p :: rest.2.1, rest.2.2)

/-- The shared control flow of both `secureDelete` versions: stat the file
(absent → the `try` catches), overwrite it `passes` times flushing after
each pass, then unlink.  Any injected fault lands in the `catch`.  Returns
the file system, the event trace, and whether the routine reached its
success exit. -/
def secureDeleteRun (rnd : Nat → Nat → Nat) (fl : EraseFaults) (fs : FSMap)
    (p : String) (passes : Nat) : FSMap × List FsEv × Bool :=
  match fsLookup fs p with
  | none => (fs, [], false)
  | some content =>
    let size := content.length
    if fl.failWrite ∧ 0 < size ∧ 0 < passes then (fs, [], false)
    else if fl.failSync ∧ 0 < passes then
      let w := passLoop rnd p size size 0 0 content
      (fsInsert fs p w.1, w.2.1, false)
    else
      let r := erasePasses rnd p size passes 0 content
      if fl.failUnlink then (fsInsert fs p r.1, r.2.1, false)
      else (fsErase (fsInsert fs p r.1) p, r.2.1 ++ [.unlinked p], true)

/-- The test-harness `secureDelete`: `return true` on success, `return
false` in the `catch`. -/
def secureDelete (rnd : Nat → Nat → Nat) (fl : EraseFaults) (fs : FSMap)
    (p : String) (passes : Nat) : FSMap × List FsEv × Option Bool :=
  let r := secureDeleteRun rnd fl fs p passes
  (r.1, r.2.1, some r.2.2)

/-- The main-process `secureDelete`: identical control flow, but both the
success path and the `catch` only call `sendLog` — there is no `return`
statement, so the call resolves to `undefined` (modelled as `none`). -/
def secureDeleteMain (rnd : Nat → Nat → Nat) (fl : EraseFaults) (fs : FSMap)
    (p : String) (passes : Nat) : FSMap × List FsEv × Option Bool :=
  let r := secureDeleteRun rnd fl fs p passes
  (r.1, r.2.1, none)

/-- Total bytes covered by write events. -/
def writtenSum : List FsEv → Nat
  | [] => 0
  | .wrote _ _ len :: es => len + writtenSum es
  | _ :: es => writtenSum es

/-- Number of flushes of `p` in a trace. -/
def syncCount (p : String) : List FsEv → Nat
  | [] => 0
  | .synced q :: es => (if q = p then 1 else 0) + syncCount p es
  | _ :: es => syncCount p es

theorem writtenSum_append (l₁ l₂ : List FsEv) :
    writtenSum (l₁ ++ l₂) = writtenSum l₁ + writtenSum l₂ := by
  induction l₁ with
  | nil => simp [writtenSum]
  | cons e es ih => cases e <;> simp [writtenSum, ih] <;> omega

theorem syncCount_append (p : String) (l₁ l₂ : List FsEv) :
    syncCount p (l₁ ++ l₂) = syncCount p l₁ + syncCount p l₂ := by
  induction l₁ with
  | nil => simp [syncCount]
  | cons e es ih => cases e <;> simp [syncCount, ih] <;> omega

theorem passLoop_writtenSum (rnd : Nat → Nat → Nat) (p : String) (size : Nat) :
    ∀ fuel k written content, size - written ≤ fuel →
      writtenSum (passLoop rnd p size fuel k written content).2.1 = size - written := by
  intro fuel
  induction fuel with
  | zero => intro k written content h; simp [passLoop, writtenSum]; omega
  | succ fuel ih =>
    intro k written content h
    by_cases hw : written < size
    · have h1 : min chunkSize (size - written) ≤ size - written := Nat.min_le_right _ _
      have h2 : 1 ≤ min chunkSize (size - written) :=
        Nat.le_min.mpr ⟨by norm_num [chunkSize], by omega⟩
      have h3 : size - (written + min chunkSize (size - written)) ≤ fuel := by omega
      simp only [passLoop, hw, if_true, writtenSum]
      rw [ih _ _ _ h3]
      omega
    · simp [passLoop, hw, writtenSum]
      omega

theorem passLoop_syncCount (rnd : Nat → Nat → Nat) (p : String) (size : Nat) :
    ∀ fuel k written content,
      syncCount p (passLoop rnd p size fuel k written content).2.1 = 0 := by
  intro fuel
  induction fuel with
  | zero => intro k written content; simp [passLoop, syncCount]
  | succ fuel ih =>
    intro k written content
    by_cases hw : written < size
    · simp only [passLoop, hw, if_true, syncCount]
      exact ih _ _ _
    · simp [passLoop, hw, syncCount]

theorem erasePasses_writtenSum (rnd : Nat → Nat → Nat) (p : String) (size : Nat) :
    ∀ r k content,
      writtenSum (erasePasses rnd p size r k content).2.1 = r * size := by
  intro r
  induction r with
  | zero => intro k content; simp [erasePasses, writtenSum]
  | succ r ih =>
    intro k content
    simp only [erasePasses, writtenSum_append]
    rw [passLoop_writtenSum rnd p size size _ 0 _ (by omega)]
    simp only [writtenSum, ih]
    rw [Nat.add_mul, Nat.one_mul]
    omega

theorem erasePasses_syncCount (rnd : Nat → Nat → Nat) (p : String) (size : Nat) :
    ∀ r k content,
      syncCount p (erasePasses rnd p size r k content).2.1 = r := by
  intro r
  induction r with
  | zero => intro k content; simp [erasePasses, syncCount]
  | succ r ih =>
    intro k content
    simp only [erasePasses, syncCount_append]
    rw [passLoop_syncCount]
    simp [syncCount, ih]
    omega

/-- C6 (amended): neither `secureDelete` version throws (both are total and
land every fault in their `catch`); the test-harness version always returns
a boolean — `true` exactly when the file was overwritten with random data
`passes` times (`passes * size` bytes written, one flush per pass) and then
unlinked, `false` on any I/O failure, in which case the file's existence is
unchanged (it may still exist); the main-process version has the same
file-system effect but returns no boolean at all (`undefined`). -/
theorem C6_secure_delete_behaviour (rnd : Nat → Nat → Nat) (fl : EraseFaults)
    (fs : FSMap) (p : String) (passes : Nat) :
    (∃ b, (secureDelete rnd fl fs p passes).2.2 = some b) ∧
    (secureDeleteMain rnd fl fs p passes).2.2 = none ∧
    (secureDeleteMain rnd fl fs p passes).1 = (secureDelete rnd fl fs p passes).1 ∧
    ((secureDelete rnd fl fs p passes).2.2 = some true →
      ∃ content, fsLookup fs p = some content ∧
        fsLookup (secureDelete rnd fl fs p passes).1 p = none ∧
        syncCount p (secureDelete rnd fl fs p passes).2.1 = passes ∧
        writtenSum (secureDelete rnd fl fs p passes).2.1 = passes * content.length ∧
        ((secureDelete rnd fl fs p passes).2.1).getLast? = some (.unlinked p)) ∧
    ((secureDelete rnd fl fs p passes).2.2 = some false →
      ((fsLookup (secureDelete rnd fl fs p passes).1 p).isSome ↔
        (fsLookup fs p).isSome)) := by
  refine ⟨⟨_, rfl⟩, rfl, rfl, ?_, ?_⟩
  · simp only [secureDelete, secureDeleteRun]
    cases hin : fsLookup fs p with
    | none => simp
    | some content =>
      by_cases h1 : fl.failWrite ∧ 0 < content.length ∧ 0 < passes
      · simp [h1]
      · simp only [h1, if_false]
        by_cases h2 : fl.failSync ∧ 0 < passes
        · simp [h2]
        · simp only [h2, if_false]
          by_cases h3 : fl.failUnlink
          · simp [h3]
          · have h3' : fl.failUnlink = false := by simpa using h3
            simp only [h3', Bool.false_eq_true, if_false]
            intro
            refine ⟨content, rfl, fsLookup_erase_self _ _, ?_, ?_, ?_⟩
            · rw [syncCount_append, erasePasses_syncCount]
              simp [syncCount]
            · rw [writtenSum_append, erasePasses_writtenSum]
              simp [writtenSum]
            · exact List.getLast?_concat _
  · simp only [secureDelete, secureDeleteRun]
    cases hin : fsLookup fs p with
    | none => simp [hin]
    | some content =>
      by_cases h1 : fl.failWrite ∧ 0 < content.length ∧ 0 < passes
      · simp [h1, hin]
      · simp only [h1, if_false]
        by_cases h2 : fl.failSync ∧ 0 < passes
        · simp [h2, hin, fsInsert, fsLookup]
        · simp only [h2, if_false]
          by_cases h3 : fl.failUnlink
          · simp [h3, hin, fsInsert, fsLookup]
          · simp [h3]

/-- C6 counterexample: the claim says `secureDelete` "returns a boolean"
for every path and pass count, but the main-process version (which the
folder handlers call) contains no `return` statement: on a perfectly
ordinary successful erase its result is `undefined`, not a boolean. -/
theorem C6_counterexample_main_returns_no_boolean :
    (secureDeleteMain (fun _ _ => 5) ⟨false, false, false⟩ [("f", [1, 2, 3])] "f" 2).2.2
        = none ∧
      (secureDeleteMain (fun _ _ => 5) ⟨false, false, false⟩ [("f", [1, 2, 3])] "f" 2).2.2
        ≠ some true ∧
      (secureDeleteMain (fun _ _ => 5) ⟨false, false, false⟩ [("f", [1, 2, 3])] "f" 2).2.2
        ≠ some false :=
  ⟨rfl, by decide, by decide⟩

theorem C6_secure_delete_behaviour_witness :
    (secureDelete (fun _ _ => 5) ⟨false, false, true⟩ [("f", [1, 2, 3])] "f" 2).2.2
        = some false ∧
      ((fsLookup (secureDelete (fun _ _ => 5) ⟨false, false, true⟩ [("f", [1, 2, 3])] "f"
          2).1 "f").isSome ↔ (fsLookup [("f", [1, 2, 3])] "f").isSome) ∧
      (secureDelete (fun _ _ => 5) ⟨false, false, false⟩ [("f", [1, 2, 3])] "f" 2).2.2
        = some true ∧
      ∃ content, fsLookup [("f", [1, 2, 3])] "f" = some content ∧
        fsLookup (secureDelete (fun _ _ => 5) ⟨false, false, false⟩ [("f", [1, 2, 3])] "f"
          2).1 "f" = none ∧
        syncCount "f" (secureDelete (fun _ _ => 5) ⟨false, false, false⟩ [("f", [1, 2, 3])]
          "f" 2).2.1 = 2 ∧
        writtenSum (secureDelete (fun _ _ => 5) ⟨false, false, false⟩ [("f", [1, 2, 3])]
          "f" 2).2.1 = 2 * content.length ∧
        ((secureDelete (fun _ _ => 5) ⟨false, false, false⟩ [("f", [1, 2, 3])] "f"
          2).2.1).getLast? = some (.unlinked "f") :=
  ⟨by decide,
    (C6_secure_delete_behaviour (fun _ _ => 5) ⟨false, false, true⟩ [("f", [1, 2, 3])] "f"
      2).2.2.2.2 (by decide),
    by decide,
    (C6_secure_delete_behaviour (fun _ _ => 5) ⟨false, false, false⟩ [("f", [1, 2, 3])]
      "f" 2).2.2.2.1 (by decide)⟩

theorem C5_decrypt_failure_leaves_no_output_witness :
    (decryptFileFS trivPrim ⟨false, 0, false, false⟩ "ab" [1]
        [("g.enc", MAGIC ++ List.replicate 44 0)] "g.enc").2 =
      .error .authenticationFailed ∧
    fsLookup (decryptFileFS trivPrim ⟨false, 0, false, false⟩ "ab" [1]
        [("g.enc", MAGIC ++ List.replicate 44 0)] "g.enc").1 (outPathOf "g.enc") =
      fsLookup [("g.enc", MAGIC ++ List.replicate 44 0)] (outPathOf "g.enc") ∧
    (fsLookup (decryptFileFS trivPrim ⟨false, 0, false, false⟩ "ab" [1]
        [("g.enc", MAGIC ++ List.replicate 44 0)] "g.enc").1 (tmpPathOf "g.enc" "ab") =
        none ∨
      (decryptFileFS trivPrim ⟨false, 0, false, false⟩ "ab" [1]
        [("g.enc", MAGIC ++ List.replicate 44 0)] "g.enc").1 =
        [("g.enc", MAGIC ++ List.replicate 44 0)]) :=
  by
  have h : (decryptFileFS trivPrim ⟨false, 0, false, false⟩ "ab" [1]
      [("g.enc", MAGIC ++ List.replicate 44 0)] "g.enc").2 =
      .error .authenticationFailed := rfl
  obtain ⟨h1, h2⟩ := (C5_decrypt_failure_leaves_no_output trivPrim ⟨false, 0, false, false⟩
    "ab" [1] [("g.enc", MAGIC ++ List.replicate 44 0)] "g.enc").1 .authenticationFailed h
  exact ⟨h, h1, h2⟩

/-! ## The folder handlers -/

/-- Progress-channel events sent by the folder handlers (`sendProgress`).
`error` carries the failing path (the message is dropped); `progress` is
the aggregate `{processed, total}` event. -/
inductive Ev where
  | skip (file : String)
  | start (file : String) (index total : Nat)
  | done (file : String) (out : String)
  | error (file : String)
  | progress (processed total : Nat)
  deriving DecidableEq, Repr

/-- Observables of one folder run: the progress events in emission order,
the files actually passed to `encryptFile`/`decryptFile`, the handler's
`count` variable (returned as the `processed` field of the terminal
result), and its loop-local `processed` variable. -/
structure RunOut where
  events : List Ev
  invoked : List String
  count : Nat
  processed : Nat
  deriving DecidableEq, Repr

/-- The shared loop body of the `encrypt-folder` and `decrypt-folder`
handlers.  Per file: check the cancellation flag (modelled by `cancel` at
the iteration index), apply the skip policy `skipP` (skip event, increment
`processed`, `continue` — note no aggregate progress event), else emit
`start {index = processed + 1, total}`, invoke the cipher (`fails` tells
whether it throws; `outOf` names its output), emit `done`/`error`,
increment `count` only on success, then increment `processed` and emit the
aggregate `progress {processed, total}` event. -/
def folderGo (skipP : String → Bool) (outOf : String → String) (fails : String → Bool)
    (cancel : Nat → Bool) (total : Nat) : Nat → Nat → Nat → List String → RunOut
  | _, processed, count, [] => ⟨[], [], count, processed⟩
  | i, processed, count, f :: rest =>
    if cancel i then ⟨[], [], count, processed⟩
    else if skipP f then
      let r := folderGo skipP outOf fails cancel total (i + 1) (processed + 1) count rest
      ⟨.skip f :: r.events, r.invoked, r.count, r.processed⟩
    else if fails f then
      let r := folderGo skipP outOf fails cancel total (i + 1) (processed + 1) count rest
      ⟨.start f (processed + 1) total :: .error f ::
          .progress (processed + 1) total :: r.events,
        f :: r.invoked, r.count, r.processed⟩
    else
      let r := folderGo skipP outOf fails cancel total (i + 1) (processed + 1) (count + 1) rest
      ⟨.start f (processed + 1) total :: .done f (outOf f) ::
          .progress (processed + 1) total :: r.events,
        f :: r.invoked, r.count, r.processed⟩

/-- The `encrypt-folder` handler: skips files already bearing `.enc`,
`encryptFile` outputs `file + '.enc'`; `total` is the file count of the
pre-pass walk. -/
def encryptFolderRun (fails : String → Bool) (cancel : Nat → Bool)
    (files : List String) : RunOut :=
  folderGo hasEncSuffix (fun f => f ++ ".enc") fails cancel files.length 0 0 0 files

/-- The `decrypt-folder` handler: skips files lacking `.enc`,
`decryptFile` outputs `outPathOf file`. -/
def decryptFolderRun (fails : String → Bool) (cancel : Nat → Bool)
    (files : List String) : RunOut :=
  folderGo (fun f => !hasEncSuffix f) outPathOf fails cancel files.length 0 0 0 files

/-- The `(processed, total)` payloads of the aggregate progress events, in
order. -/
def progressEvents : List Ev → List (Nat × Nat)
  | [] => []
  | .progress p t :: es => (p, t) :: progressEvents es
  | _ :: es => progressEvents es

/-- The files the loop reaches before the cancellation flag stops it. -/
def handledList (cancel : Nat → Bool) : Nat → List String → List String
  | _, [] => []
  | i, f :: rest => if cancel i then [] else f :: handledList cancel (i + 1) rest

/-- Specification of the aggregate progress payloads: one `(processed + 1,
total)` entry per handled non-skipped file, where `processed` also counts
the skipped files before it; no entry for a skipped file. -/
def expectedProgress (skipP : String → Bool) (cancel : Nat → Bool) (total : Nat) :
    Nat → Nat → List String → List (Nat × Nat)
  | _, _, [] => []
  | i, processed, f :: rest =>
    if cancel i then []
    else if skipP f then expectedProgress skipP cancel total (i + 1) (processed + 1) rest
    else (processed + 1, total) ::
      expectedProgress skipP cancel total (i + 1) (processed + 1) rest

theorem folderGo_progress (skipP : String → Bool) (outOf : String → String)
    (fails : String → Bool) (cancel : Nat → Bool) (total : Nat) :
    ∀ (rest : List String) (i processed count : Nat),
      progressEvents (folderGo skipP outOf fails cancel total i processed count rest).events
        = expectedProgress skipP cancel total i processed rest := by
  intro rest
  induction rest with
  | nil => intro i processed count; rfl
  | cons f rest ih =>
    intro i processed count
    by_cases hc : cancel i
    · simp [folderGo, expectedProgress, hc, progressEvents]
    · by_cases hs : skipP f
      · simp [folderGo, expectedProgress, hc, hs, progressEvents, ih]
      · by_cases hf : fails f <;>
          simp [folderGo, expectedProgress, hc, hs, hf, progressEvents, ih]

theorem folderGo_processed (skipP : String → Bool) (outOf : String → String)
    (fails : String → Bool) (cancel : Nat → Bool) (total : Nat) :
    ∀ (rest : List String) (i processed count : Nat),
      (folderGo skipP outOf fails cancel total i processed count rest).processed
        = processed + (handledList cancel i rest).length := by
  intro rest
  induction rest with
  | nil => intro i processed count; simp [folderGo, handledList]
  | cons f rest ih =>
    intro i processed count
    by_cases hc : cancel i
    · simp [folderGo, handledList, hc]
    · by_cases hs : skipP f
      · simp [folderGo, handledList, hc, hs, ih]; omega
      · by_cases hf : fails f <;> simp [folderGo, handledList, hc, hs, hf, ih] <;> omega

theorem folderGo_count (skipP : String → Bool) (outOf : String → String)
    (fails : String → Bool) (cancel : Nat → Bool) (total : Nat) :
    ∀ (rest : List String) (i processed count : Nat),
      (folderGo skipP outOf fails cancel total i processed count rest).count
        = count + ((handledList cancel i rest).filter
            (fun f => !skipP f && !fails f)).length := by
  intro rest
  induction rest with
  | nil => intro i processed count; simp [folderGo, handledList]
  | cons f rest ih =>
    intro i processed count
    by_cases hc : cancel i
    · simp [folderGo, handledList, hc]
    · by_cases hs : skipP f
      · simp [folderGo, handledList, hc, hs, ih]
      · by_cases hf : fails f <;> simp [folderGo, handledList, hc, hs, hf, ih] <;> omega

theorem folderGo_invoked (skipP : String → Bool) (outOf : String → String)
    (fails : String → Bool) (cancel : Nat → Bool) (total : Nat) :
    ∀ (rest : List String) (i processed count : Nat),
      (folderGo skipP outOf fails cancel total i processed count rest).invoked
        = (handledList cancel i rest).filter (fun f => !skipP f) := by
  intro rest
  induction rest with
  | nil => intro i processed count; simp [folderGo, handledList]
  | cons f rest ih =>
    intro i processed count
    by_cases hc : cancel i
    · simp [folderGo, handledList, hc]
    · by_cases hs : skipP f
      · simp [folderGo, handledList, hc, hs, ih]
      · by_cases hf : fails f <;> simp [folderGo, handledList, hc, hs, hf, ih]

theorem folderGo_skip_event (skipP : String → Bool) (outOf : String → String)
    (fails : String → Bool) (cancel : Nat → Bool) (total : Nat) :
    ∀ (rest : List String) (i processed count : Nat) (f : String),
      f ∈ handledList cancel i rest → skipP f = true →
      Ev.skip f ∈ (folderGo skipP outOf fails cancel total i processed count rest).events := by
  intro rest
  induction rest with
  | nil => intro i processed count f hf; simp [handledList] at hf
  | cons g rest ih =>
    intro i processed count f hf hsk
    by_cases hc : cancel i
    · simp [handledList, hc] at hf
    · simp only [handledList, hc, Bool.false_eq_true, if_false, List.mem_cons] at hf
      rcases hf with heq | hf
      · subst heq
        simp [folderGo, hc, hsk]
      · by_cases hs : skipP g
        · have h2 := ih (i + 1) (processed + 1) count f hf hsk
          simp [folderGo, hc, hs, h2]
        · by_cases hg : fails g
          · have h2 := ih (i + 1) (processed + 1) count f hf hsk
            simp [folderGo, hc, hs, hg, h2]
          · have h2 := ih (i + 1) (processed + 1) (count + 1) f hf hsk
            simp [folderGo, hc, hs, hg, h2]

/-- C2 counterexample: the claim says an aggregate progress event follows
every handled file including skips, but a one-file encrypt run whose only
file already bears `.enc` emits a skip event, counts it as processed — and
emits no aggregate progress event at all (the skip branch `continue`s past
the `sendProgress({type:'progress'})` call). -/
theorem C2_counterexample_skip_has_no_progress_event :
    (encryptFolderRun (fun _ => false) (fun _ => false) ["a.enc"]).events =
        [Ev.skip "a.enc"] ∧
      progressEvents
        (encryptFolderRun (fun _ => false) (fun _ => false) ["a.enc"]).events = [] ∧
      (encryptFolderRun (fun _ => false) (fun _ => false) ["a.enc"]).processed = 1 := by
  decide

/-- C2 (amended): in every folder run (encrypt or decrypt), an aggregate
`progress {processed, total}` event is emitted after each handled
non-skipped file — success and error both — with `processed` counting all
handled files including earlier skips; a skipped file increments the
processed counter but emits no aggregate progress event. -/
theorem C2_progress_after_each_nonskipped_file (fails : String → Bool)
    (cancel : Nat → Bool) (files : List String) :
    progressEvents (encryptFolderRun fails cancel files).events =
        expectedProgress hasEncSuffix cancel files.length 0 0 files ∧
      progressEvents (decryptFolderRun fails cancel files).events =
        expectedProgress (fun f => !hasEncSuffix f) cancel files.length 0 0 files ∧
      (encryptFolderRun fails cancel files).processed =
        (handledList cancel 0 files).length ∧
      (decryptFolderRun fails cancel files).processed =
        (handledList cancel 0 files).length := by
  have e1 := folderGo_progress hasEncSuffix (fun f => f ++ ".enc") fails cancel
    files.length files 0 0 0
  have e2 := folderGo_progress (fun f => !hasEncSuffix f) outPathOf fails cancel
    files.length files 0 0 0
  have e3 := folderGo_processed hasEncSuffix (fun f => f ++ ".enc") fails cancel
    files.length files 0 0 0
  have e4 := folderGo_processed (fun f => !hasEncSuffix f) outPathOf fails cancel
    files.length files 0 0 0
  exact ⟨by simpa [encryptFolderRun] using e1, by simpa [decryptFolderRun] using e2,
    by simpa [encryptFolderRun] using e3, by simpa [decryptFolderRun] using e4⟩

/-- C3 counterexample: the claim says the terminal `processedCount` counts
every handled file (success, skip, or error); but a one-file run whose file
errors emits the error and progress events (one file handled) while the
terminal result carries `processed = count = 0` — only successes are
counted. -/
theorem C3_counterexample_count_excludes_errors :
    (encryptFolderRun (fun _ => true) (fun _ => false) ["a"]).count = 0 ∧
      (encryptFolderRun (fun _ => true) (fun _ => false) ["a"]).events =
        [Ev.start "a" 1 1, Ev.error "a", Ev.progress 1 1] ∧
      (encryptFolderRun (fun _ => true) (fun _ => false) ["a"]).processed = 1 := by
  decide

/-- C3 (amended): the terminal result of a successful (or cancelled) folder
run is `{success: true, processed: count}` where `count` is the number of
files successfully encrypted/decrypted before the run stopped; skipped
files and files that errored are excluded from it, though the loop-local
processed counter (carried by the progress events) does count them. -/
theorem C3_terminal_count_is_successes (fails : String → Bool)
    (cancel : Nat → Bool) (files : List String) :
    (encryptFolderRun fails cancel files).count =
        ((handledList cancel 0 files).filter
          (fun f => !hasEncSuffix f && !fails f)).length ∧
      (decryptFolderRun fails cancel files).count =
        ((handledList cancel 0 files).filter
          (fun f => hasEncSuffix f && !fails f)).length ∧
      (encryptFolderRun fails cancel files).processed =
        (handledList cancel 0 files).length ∧
      (decryptFolderRun fails cancel files).processed =
        (handledList cancel 0 files).length := by
  have e1 := folderGo_count hasEncSuffix (fun f => f ++ ".enc") fails cancel
    files.length files 0 0 0
  have e2 := folderGo_count (fun f => !hasEncSuffix f) outPathOf fails cancel
    files.length files 0 0 0
  have e3 := folderGo_processed hasEncSuffix (fun f => f ++ ".enc") fails cancel
    files.length files 0 0 0
  have e4 := folderGo_processed (fun f => !hasEncSuffix f) outPathOf fails cancel
    files.length files 0 0 0
  have hfun : (fun f => !(!hasEncSuffix f) && !fails f) =
      (fun f => hasEncSuffix f && !fails f) := by
    funext f; simp [Bool.not_not]
  exact ⟨by simpa [encryptFolderRun] using e1,
    by simpa [decryptFolderRun, hfun] using e2,
    by simpa [encryptFolderRun] using e3, by simpa [decryptFolderRun] using e4⟩

/-- C8: in every encrypt run, a handled file already bearing the `.enc`
suffix is skipped — a skip event is emitted for it, it is counted by the
processed counter, and `encryptFile` is never invoked on it (the invoked
files are exactly the handled files without the suffix); symmetrically,
in every decrypt run a handled file lacking the suffix is skipped with a
skip event and `decryptFile` is never invoked on it. -/
theorem C8_skip_policy (fails : String → Bool) (cancel : Nat → Bool)
    (files : List String) :
    (encryptFolderRun fails cancel files).invoked =
        (handledList cancel 0 files).filter (fun f => !hasEncSuffix f) ∧
      (∀ f, f ∈ (encryptFolderRun fails cancel files).invoked →
        hasEncSuffix f = false) ∧
      (∀ f, f ∈ handledList cancel 0 files → hasEncSuffix f = true →
        Ev.skip f ∈ (encryptFolderRun fails cancel files).events ∧
          f ∉ (encryptFolderRun fails cancel files).invoked) ∧
      (decryptFolderRun fails cancel files).invoked =
        (handledList cancel 0 files).filter (fun f => hasEncSuffix f) ∧
      (∀ f, f ∈ (decryptFolderRun fails cancel files).invoked →
        hasEncSuffix f = true) ∧
      (∀ f, f ∈ handledList cancel 0 files → hasEncSuffix f = false →
        Ev.skip f ∈ (decryptFolderRun fails cancel files).events ∧
          f ∉ (decryptFolderRun fails cancel files).invoked) ∧
      (encryptFolderRun fails cancel files).processed =
        (handledList cancel 0 files).length ∧
      (decryptFolderRun fails cancel files).processed =
        (handledList cancel 0 files).length := by
  have henc : (encryptFolderRun fails cancel files).invoked =
      (handledList cancel 0 files).filter (fun f => !hasEncSuffix f) := by
    simpa [encryptFolderRun] using
      folderGo_invoked hasEncSuffix (fun f => f ++ ".enc") fails cancel
        files.length files 0 0 0
  have hdec' : (decryptFolderRun fails cancel files).invoked =
      (handledList cancel 0 files).filter (fun f => hasEncSuffix f) := by
    have hfun : (fun f => !(!hasEncSuffix f)) = (fun f => hasEncSuffix f) := by
      funext f; simp [Bool.not_not]
    simpa [decryptFolderRun, hfun] using
      folderGo_invoked (fun f => !hasEncSuffix f) outPathOf fails cancel
        files.length files 0 0 0
  have e3 := folderGo_processed hasEncSuffix (fun f => f ++ ".enc") fails cancel
    files.length files 0 0 0
  have e4 := folderGo_processed (fun f => !hasEncSuffix f) outPathOf fails cancel
    files.length files 0 0 0
  refine ⟨henc, ?_, ?_, hdec', ?_, ?_,
    by simpa [encryptFolderRun] using e3, by simpa [decryptFolderRun] using e4⟩
  · intro f hf
    rw [henc] at hf
    have := (List.mem_filter.mp hf).2
    simpa using this
  · intro f hf hsk
    have hev : Ev.skip f ∈ (encryptFolderRun fails cancel files).events :=
      folderGo_skip_event hasEncSuffix (fun g => g ++ ".enc") fails cancel
        files.length files 0 0 0 f hf hsk
    refine ⟨hev, ?_⟩
    intro hmem
    rw [henc] at hmem
    have := (List.mem_filter.mp hmem).2
    simp [hsk] at this
  · intro f hf
    rw [hdec'] at hf
    exact (List.mem_filter.mp hf).2
  · intro f hf hsk
    have hsk' : (!hasEncSuffix f) = true := by simp [hsk]
    have hev : Ev.skip f ∈ (decryptFolderRun fails cancel files).events :=
      folderGo_skip_event (fun g => !hasEncSuffix g) outPathOf fails cancel
        files.length files 0 0 0 f hf hsk'
    refine ⟨hev, ?_⟩
    intro hmem
    rw [hdec'] at hmem
    have := (List.mem_filter.mp hmem).2
    simp [hsk] at this

theorem C8_skip_policy_witness :
    "a.enc" ∈ handledList (fun _ => false) 0 ["a.enc", "b"] ∧
      hasEncSuffix "a.enc" = true ∧
      (Ev.skip "a.enc" ∈
          (encryptFolderRun (fun _ => false) (fun _ => false) ["a.enc", "b"]).events ∧
        "a.enc" ∉
          (encryptFolderRun (fun _ => false) (fun _ => false) ["a.enc", "b"]).invoked) ∧
      "b" ∈ handledList (fun _ => false) 0 ["a.enc", "b"] ∧
      hasEncSuffix "b" = false ∧
      (Ev.skip "b" ∈
          (decryptFolderRun (fun _ => false) (fun _ => false) ["a.enc", "b"]).events ∧
        "b" ∉
          (decryptFolderRun (fun _ => false) (fun _ => false) ["a.enc", "b"]).invoked) :=
  ⟨by decide, by decide,
    (C8_skip_policy (fun _ => false) (fun _ => false) ["a.enc", "b"]).2.2.1 "a.enc"
      (by decide) (by decide),
    by decide, by decide,
    (C8_skip_policy (fun _ => false) (fun _ => false) ["a.enc", "b"]).2.2.2.2.2.1 "b"
      (by decide) (by decide)⟩

end FolderVault
